import Mathlib

/-!
Verification of the fuzzy code-resolution engine of the Trade_data_service
repository.

The embedded code:
* `FuzzySearch.search` and `FuzzySearch.find_best_match`
  (src/src/utils/fuzzy_search.py);
* `TradeDataExtractor._get_code` (src/src/extractor.py);
* the similarity scorer those functions call,
  `difflib.SequenceMatcher(None, a, b).ratio()` from the Python standard
  library (CPython `difflib`, `isjunk = None`, `autojunk = True`), embedded
  as `ratioQ` below.

Modelling conventions: Python strings are `List Char`; Python floats are
modelled as exact rationals `ℚ` (the similarity ratio `2*M/T` and the
threshold constants 0.6 / 0.5 / 0.9 are all exact small rationals); the
insertion-ordered Python dict `mapping: int -> str` is a `List (Nat × Str)`
in iteration order; Python's `None`-or-value results are `Option`.
Python's `str.lower` is modelled by `Char.toLower` (exact on the ASCII
range); `str.isdigit` / `int(...)` are modelled on decimal digits.
-/

namespace TradeData

abbrev Str := List Char

/-- Python `s.lower()` applied to a `List Char` string. -/
def toLowerStr (s : Str) : Str := s.map Char.toLower

/-! ### The similarity scorer: difflib.SequenceMatcher(None, a, b).ratio()

`SequenceMatcher.__chain_b` builds `b2j`, mapping each element of `b` to the
ascending list of its indices in `b`.  With `isjunk = None` the junk set
`bjunk` is empty; with `autojunk = True` (the default used by the source),
when `len(b) >= 200` every element occurring more than `len(b) // 100 + 1`
times is "popular" and is deleted from `b2j`. -/

/-- Autojunk popularity test of `SequenceMatcher.__chain_b`. -/
def isPopular (b : Str) (c : Char) : Bool :=
  decide (200 ≤ b.length ∧ b.length / 100 + 1 < b.count c)

/-- Chain map `b2j b c`: ascending indices of `c` in `b`, with popular elements
deleted (autojunk); the `bjunk` set is empty because the source constructs
`SequenceMatcher(None, ...)`. -/
def b2j (b : Str) (c : Char) : List Nat :=
  if isPopular b c then []
  else (List.range b.length).filter (fun j => b.get? j == some c)

/-- Element read with a default, for loop positions that are always in
range in the Python original. -/
def dchar (s : Str) (i : Nat) : Char := s.getD i default

/-- Comparison `a[i] == b[j]`, false when either index is out of range (the Python
loops only compare in-range indices). -/
def matchAt (a b : Str) (i j : Nat) : Bool :=
  match a.get? i, b.get? j with
  | some x, some y => x == y
  | _, _ => false

/-- Value `kval prev j` is `k = j2len.get(j-1, 0) + 1`: the previous row's chain
length at column `j - 1`, extended by one (`j2len.get(-1, 0)` is 0, matched
by the `0` arm). -/
def kval (prev : Nat → Nat) : Nat → Nat
  | 0 => 1
  | j1 + 1 => prev j1 + 1

/-- Inner loop of `find_longest_match` over `b2j[a[i]]` for one row `i`:
`for j in b2j.get(a[i], nothing): if j < blo: continue; if j >= bhi: break;
k = newj2len[j] = j2len.get(j-1, 0) + 1; if k > bestsize: best <- (i-k+1,
j-k+1, k)`.  `prev` is the previous row `j2len`, the function result is the
new row `newj2len` (total, 0 where unset) together with the updated best
block. -/
def innerLoop (i blo bhi : Nat) (prev : Nat → Nat) :
    List Nat → (Nat → Nat) → Nat × Nat × Nat → (Nat → Nat) × (Nat × Nat × Nat)
  | [], row, best => (row, best)
  | j :: js, row, best =>
    if j < blo then innerLoop i blo bhi prev js row best
    else if bhi ≤ j then (row, best)
    else
      let k := kval prev j
      innerLoop i blo bhi prev js
        (fun j2 => if j2 = j then k else row j2)
        (if best.2.2 < k then (i + 1 - k, j + 1 - k, k) else best)

/-- Outer loop of `find_longest_match`: `for i in range(alo, ahi)`, carried
as a start index `i` and remaining row count `fuel` (callers pass
`fuel = ahi - alo`). -/
def dpLoop (bjf : Char → List Nat) (a : Str) (blo bhi : Nat) :
    Nat → Nat → (Nat → Nat) → Nat × Nat × Nat → Nat × Nat × Nat
  | _, 0, _, best => best
  | i, fuel + 1, prev, best =>
    let step := innerLoop i blo bhi prev (bjf (dchar a i)) (fun _ => 0) best
    dpLoop bjf a blo bhi (i + 1) fuel step.1 step.2

/-- Backward extension of `find_longest_match`: `while besti > alo and
bestj > blo and a[besti-1] == b[bestj-1]: besti, bestj, bestsize -= 1, -1,
-1`.  (The `not isbjunk(...)` conjunct is omitted: `bjunk` is empty.)
Structural recursion on `besti`, which decreases by exactly 1 per
iteration. -/
def extendBack (a b : Str) (alo blo : Nat) :
    Nat → Nat → Nat → Nat × Nat × Nat
  | 0, bj, k => (0, bj, k)
  | bi + 1, bj, k =>
    if alo < bi + 1 ∧ blo < bj ∧ matchAt a b bi (bj - 1) then
      extendBack a b alo blo bi (bj - 1) (k + 1)
    else (bi + 1, bj, k)

/-- Forward extension of `find_longest_match`: `while besti+bestsize < ahi
and bestj+bestsize < bhi and a[besti+bestsize] == b[bestj+bestsize]:
bestsize += 1`, run with fuel `ahi - (bi + k)`; the fuel is exhausted
exactly when the first loop condition fails, so `extendFwd` below computes
the loop precisely. -/
def extendFwdGo (a b : Str) (ahi bhi : Nat) :
    Nat → Nat → Nat → Nat → Nat × Nat × Nat
  | 0, bi, bj, k => (bi, bj, k)
  | fuel + 1, bi, bj, k =>
    if bi + k < ahi ∧ bj + k < bhi ∧ matchAt a b (bi + k) (bj + k) then
      extendFwdGo a b ahi bhi fuel bi bj (k + 1)
    else (bi, bj, k)

/-- The forward-extension loop with its exact fuel. -/
def extendFwd (a b : Str) (ahi bhi : Nat) (bi bj k : Nat) : Nat × Nat × Nat :=
  extendFwdGo a b ahi bhi (ahi - (bi + k)) bi bj k

/-- Model of `SequenceMatcher.find_longest_match(alo, ahi, blo, bhi)`: the dynamic
programming pass, then the two non-junk extension loops.  The final two
junk-extension loops of the original are guarded by `isbjunk(...)` and
never run because `bjunk` is empty (`isjunk = None` at the call site). -/
def findLongestMatch (bjf : Char → List Nat) (a b : Str)
    (alo ahi blo bhi : Nat) : Nat × Nat × Nat :=
  let d := dpLoop bjf a blo bhi alo (ahi - alo) (fun _ => 0) (alo, blo, 0)
  let e := extendBack a b alo blo d.1 d.2.1 d.2.2
  extendFwd a b ahi bhi e.1 e.2.1 e.2.2

/-- Recursive core of `get_matching_blocks`: find the longest match of the
range, stop if empty, otherwise recurse on the two remainders.  The
original drives this with an explicit LIFO queue and then sorts the blocks;
the multiset of emitted blocks is identical.  Run on fuel: every recursive
call strictly shrinks `ahi - alo`, so `fuel = ahi - alo + 1` (supplied by
`matchBlocks`) is never exhausted. -/
def matchBlocksGo (bjf : Char → List Nat) (a b : Str) :
    Nat → Nat → Nat → Nat → Nat → List (Nat × Nat × Nat)
  | 0, _, _, _, _ => []
  | fuel + 1, alo, ahi, blo, bhi =>
    let r := findLongestMatch bjf a b alo ahi blo bhi
    if r.2.2 = 0 then []
    else
      matchBlocksGo bjf a b fuel alo r.1 blo r.2.1 ++
        r :: matchBlocksGo bjf a b fuel (r.1 + r.2.2) ahi (r.2.1 + r.2.2) bhi

/-- The matching blocks of the two full strings (without the merging of
adjacent blocks and the terminal `(la, lb, 0)` sentinel that
`get_matching_blocks` adds: neither changes the total matched size, which
is all `ratio()` reads). -/
def matchBlocks (bjf : Char → List Nat) (a b : Str) : List (Nat × Nat × Nat) :=
  matchBlocksGo bjf a b (a.length + 1) 0 a.length 0 b.length

/-- Total matched size `M = sum(triple[-1] for triple in blocks)`. -/
def sumBlocks (bs : List (Nat × Nat × Nat)) : Nat :=
  (bs.map fun x => x.2.2).sum

/-- Model of `difflib.SequenceMatcher(None, a, b).ratio()` as an exact rational:
`_calculate_ratio(matches, length) = 2.0 * matches / length` when
`length = len(a) + len(b)` is nonzero, else `1.0`; `Rat.divInt` is exact
integer division into the rationals. -/
def ratioQ (a b : Str) : ℚ :=
  let m := sumBlocks (matchBlocks (b2j b) a b)
  if a.length + b.length = 0 then 1
  else Rat.divInt (2 * m) (a.length + b.length)

/-! ### FuzzySearch (src/src/utils/fuzzy_search.py) -/

namespace FuzzySearch

/-- Loop body of `FuzzySearch.search` for one mapping entry `(code, name)`:
`name_lower = str(name).lower(); similarity = SequenceMatcher(None,
search_term, name_lower).ratio(); if similarity >= threshold:
append (code, name, similarity); elif search_term in name_lower:
append (code, name, partial_match_score)`.  `st` is the already lower-cased
search term, `pms` is `partial_match_score`. -/
def emitEntry (st : Str) (threshold pms : ℚ) (e : Nat × Str) :
    Option (Nat × Str × ℚ) :=
  let nl := toLowerStr e.2
  let similarity := ratioQ st nl
  if threshold ≤ similarity then some (e.1, e.2, similarity)
  else if st <:+: nl then some (e.1, e.2, pms)
  else none

/-- The `matches` list built by the `for code, name in mapping.items()`
loop of `FuzzySearch.search` (in mapping iteration order). -/
def searchMatches (search_term : Str) (mapping : List (Nat × Str))
    (threshold pms : ℚ) : List (Nat × Str × ℚ) :=
  mapping.filterMap (emitEntry (toLowerStr search_term) threshold pms)

/-- The order used by `sorted(matches, key=lambda x: x[2], reverse=True)`:
`x` may come before `y` iff `y`'s similarity is at most `x`'s. -/
def simGE (x y : Nat × Str × ℚ) : Prop := y.2.2 ≤ x.2.2

instance : DecidableRel simGE :=
  fun x y => inferInstanceAs (Decidable (y.2.2 ≤ x.2.2))

instance : IsTotal (Nat × Str × ℚ) simGE := ⟨fun x y => le_total y.2.2 x.2.2⟩

instance : IsTrans (Nat × Str × ℚ) simGE :=
  ⟨fun _ _ _ h1 h2 => le_trans h2 h1⟩

/-- Model of `FuzzySearch.search(search_term, mapping, threshold,
partial_match_score, max_results)`: lower-case the term, build `matches`,
return `sorted(matches, key=lambda x: x[2], reverse=True)[:max_results]`.
Python's `sorted` is a stable sort; a stable sort over a decidable total
preorder is a unique list function, embedded here as `List.insertionSort`
(`sorted_insertionSort`, `perm_insertionSort` and `sublist_insertionSort`
certify sortedness and stability below). -/
def sortedMatches (search_term : Str) (mapping : List (Nat × Str))
    (threshold pms : ℚ) : List (Nat × Str × ℚ) :=
  List.insertionSort simGE (searchMatches search_term mapping threshold pms)

/-- The returned list: the sorted candidates truncated to `max_results`. -/
def search (search_term : Str) (mapping : List (Nat × Str))
    (threshold pms : ℚ) (max_results : Nat) : List (Nat × Str × ℚ) :=
  (sortedMatches search_term mapping threshold pms).take max_results

/-- Model of `FuzzySearch.find_best_match(search_term, mapping, item_type,
exact_search)`: if `exact_search`, scan the mapping for the first entry
with `str(name).lower() == search_lower` and return `(code, name, [])`;
otherwise fall through to `FuzzySearch.search(search_lower, mapping,
threshold=0.6 if item_type == 'country' else 0.5)` and return
`(None, None, fuzzy_matches)`. -/
def find_best_match (search_term : Str) (mapping : List (Nat × Str))
    (item_type : String) (exact_search : Bool) :
    Option Nat × Option Str × List (Nat × Str × ℚ) :=
  let search_lower := toLowerStr search_term
  match (if exact_search then
      mapping.find? (fun e => toLowerStr e.2 == search_lower) else none) with
  | some e => (some e.1, some e.2, [])
  | none =>
    (none, none,
      search search_lower mapping
        (if item_type == "country" then Rat.divInt 6 10 else Rat.divInt 5 10)
        (Rat.divInt 9 10) 5)

end FuzzySearch

/-! ### TradeDataExtractor._get_code (src/src/extractor.py) -/

/-- Python `search_term.isdigit()` on decimal digits: true iff the string
is nonempty and all characters are digits. -/
def isdigit (s : Str) : Bool := !s.isEmpty && s.all Char.isDigit

/-- Python `int(search_term)` for a decimal digit string. -/
def digitsToNat (s : Str) : Nat :=
  s.foldl (fun acc c => acc * 10 + (c.toNat - '0'.toNat)) 0

/-- Model of `TradeDataExtractor._get_code(search_term, mapping, item_type)`:
`if search_term.isdigit(): return int(search_term)`; otherwise call
`find_best_match`; `if code is not None: return code`; otherwise
`if matches: return matches[0][0]`; finally `return None`.  The printing
statements of the original have no effect on the returned value. -/
def _get_code (search_term : Str) (mapping : List (Nat × Str))
    (item_type : String) : Option Nat :=
  if isdigit search_term then some (digitsToNat search_term)
  else
    match FuzzySearch.find_best_match search_term mapping item_type true with
    | (some code, _, _) => some code
    | (none, _, ms) =>
      match ms with
      | [] => none
      | m :: _ => some m.1

/-! ### Semantic chain values, used to analyse the DP on `(s, s)` -/

/-- Chain value `chrow s (i+1) j` is the value `j2len[j]` holds after the DP of
`findLongestMatch (b2j s) s s 0 n 0 n` has processed row `i`
(and `chrow s 0` is the all-zero initial row). -/
def chrow (s : Str) : Nat → Nat → Nat
  | 0, _ => 0
  | i + 1, j =>
    if i < s.length ∧ j ∈ b2j s (dchar s i) then
      (match j with | 0 => 0 | j1 + 1 => chrow s i j1) + 1
    else 0

/-- The guard of `chrow`, in symmetric form: positions `i` and `j` of `s`
hold the same non-popular character. -/
def selfCell (s : Str) (i j : Nat) : Prop :=
  i < s.length ∧ j < s.length ∧ dchar s i = dchar s j ∧
    isPopular s (dchar s i) = false

instance (s : Str) (i j : Nat) : Decidable (selfCell s i j) :=
  inferInstanceAs (Decidable (_ ∧ _ ∧ _ ∧ _))

/-- Invariant of a DP row: values are bounded by the number of processed
rows, and a nonzero value at column `j` certifies a chain reaching back at
most to column `blo`. -/
def rowOK (blo cnt : Nat) (row : Nat → Nat) : Prop :=
  ∀ j, row j ≤ cnt ∧ (row j ≠ 0 → blo + row j ≤ j + 1)

/-- Invariant of the running best block: it lies inside the ranges
`[alo, ahi)` and `[blo, bhi)`. -/
def bestOK (alo ahi blo bhi : Nat) (b : Nat × Nat × Nat) : Prop :=
  alo ≤ b.1 ∧ b.1 + b.2.2 ≤ ahi ∧ blo ≤ b.2.1 ∧ b.2.1 + b.2.2 ≤ bhi

end TradeData

/-! ## Theorems -/

namespace TradeData

/-- A candidate produced by the loop body carries the code and name of its
mapping entry, and either the computed similarity or the fixed partial
score. -/
theorem emitEntry_some {st : Str} {t p : ℚ} {e : Nat × Str}
    {c : Nat × Str × ℚ} (h : FuzzySearch.emitEntry st t p e = some c) :
    c.1 = e.1 ∧ c.2.1 = e.2 ∧
      (c.2.2 = ratioQ st (toLowerStr e.2) ∨ c.2.2 = p) := by
  unfold FuzzySearch.emitEntry at h
  by_cases h1 : t ≤ ratioQ st (toLowerStr e.2)
  · rw [if_pos h1] at h
    cases h
    exact ⟨rfl, rfl, Or.inl rfl⟩
  · rw [if_neg h1] at h
    by_cases h2 : st <:+: toLowerStr e.2
    · rw [if_pos h2] at h
      cases h
      exact ⟨rfl, rfl, Or.inr rfl⟩
    · rw [if_neg h2] at h
      cases h

/-- Every candidate returned by `search` comes from emitting some mapping
entry. -/
theorem mem_search {q : Str} {mapping : List (Nat × Str)} {t p : ℚ}
    {m : Nat} {c : Nat × Str × ℚ}
    (hc : c ∈ FuzzySearch.search q mapping t p m) :
    ∃ e ∈ mapping, FuzzySearch.emitEntry (toLowerStr q) t p e = some c := by
  have h1 : c ∈ FuzzySearch.sortedMatches q mapping t p :=
    List.take_subset _ _ hc
  have h2 : c ∈ FuzzySearch.searchMatches q mapping t p := by
    have := (List.perm_insertionSort FuzzySearch.simGE
      (FuzzySearch.searchMatches q mapping t p)).mem_iff.mp h1
    exact this
  rcases List.mem_filterMap.mp h2 with ⟨e, he, hemit⟩
  exact ⟨e, he, hemit⟩

/-- C2: per-entry emission rule of `FuzzySearch.search`.  For each mapping
entry, if the computed similarity of the lower-cased query against the
lower-cased name reaches the threshold, the entry is emitted with that
similarity; otherwise, if the query is a contiguous substring of the
lower-cased name, the entry is emitted with the fixed partial-match score
(with no side condition relating that fixed score to the computed
similarity or the threshold, so the override applies even when the computed
similarity is smaller than either); entries matching neither condition are
dropped.  The branches are mutually exclusive and the threshold test is
checked first; the `matches` list is exactly the entry-wise emission over
the mapping in iteration order. -/
theorem c2_emission_rule (q : Str) (mapping : List (Nat × Str))
    (t p : ℚ) (e : Nat × Str) :
    (t ≤ ratioQ (toLowerStr q) (toLowerStr e.2) →
      FuzzySearch.emitEntry (toLowerStr q) t p e =
        some (e.1, e.2, ratioQ (toLowerStr q) (toLowerStr e.2))) ∧
    (¬ t ≤ ratioQ (toLowerStr q) (toLowerStr e.2) →
      toLowerStr q <:+: toLowerStr e.2 →
      FuzzySearch.emitEntry (toLowerStr q) t p e = some (e.1, e.2, p)) ∧
    (¬ t ≤ ratioQ (toLowerStr q) (toLowerStr e.2) →
      ¬ toLowerStr q <:+: toLowerStr e.2 →
      FuzzySearch.emitEntry (toLowerStr q) t p e = none) ∧
    FuzzySearch.searchMatches q mapping t p =
      mapping.filterMap (FuzzySearch.emitEntry (toLowerStr q) t p) := by
  refine ⟨fun h1 => ?_, fun h1 h2 => ?_, fun h1 h2 => ?_, rfl⟩
  · unfold FuzzySearch.emitEntry
    rw [if_pos h1]
  · unfold FuzzySearch.emitEntry
    rw [if_neg h1, if_pos h2]
  · unfold FuzzySearch.emitEntry
    rw [if_neg h1, if_neg h2]

/-- C2 witness: for the entry `(11, "Turkmenistan")` and query `"turk"`
with threshold 0.6 and partial score 0.9, the computed similarity is
1/2 — below both the threshold and the fixed score — yet the entry is
emitted with similarity exactly 0.9 through the substring branch. -/
theorem c2_witness :
    ¬ (Rat.divInt 6 10 ≤
        ratioQ "turk".toList (toLowerStr "Turkmenistan".toList)) ∧
    ratioQ "turk".toList (toLowerStr "Turkmenistan".toList) <
      Rat.divInt 9 10 ∧
    FuzzySearch.emitEntry "turk".toList (Rat.divInt 6 10) (Rat.divInt 9 10)
      (11, "Turkmenistan".toList) =
      some (11, "Turkmenistan".toList, Rat.divInt 9 10) := by
  refine ⟨by decide, by decide, ?_⟩
  have h := (c2_emission_rule "turk".toList [] (Rat.divInt 6 10)
    (Rat.divInt 9 10) (11, "Turkmenistan".toList)).2.1
  have h1 : toLowerStr "turk".toList = "turk".toList := by decide
  rw [h1] at h
  exact h (by decide) (by decide)

/-- C4: a query consisting only of decimal digits resolves to its parsed
integer value directly, for every mapping and item type, bypassing exact
and fuzzy lookup. -/
theorem c4_numeric_short_circuit (q : Str) (mapping : List (Nat × Str))
    (item_type : String) (h : isdigit q = true) :
    _get_code q mapping item_type = some (digitsToNat q) := by
  unfold _get_code
  rw [if_pos h]

/-- C4 witness: `"792"` resolves to 792 against a mapping that does not
contain the key 792. -/
theorem c4_witness :
    isdigit "792".toList = true ∧
    (∀ e ∈ ([(1, "Turkey".toList)] : List (Nat × Str)), e.1 ≠ 792) ∧
    _get_code "792".toList [(1, "Turkey".toList)] "country" = some 792 :=
  ⟨by decide, by decide,
    c4_numeric_short_circuit "792".toList [(1, "Turkey".toList)] "country"
      (by decide)⟩

/-- C1 as stated is false: resolution of the all-digits query `"792"`
against the mapping `{1: "Turkey"}` returns the code 792, which is not a
key of the mapping. -/
theorem c1_counterexample :
    _get_code "792".toList [(1, "Turkey".toList)] "country" = some 792 ∧
    ∀ e ∈ ([(1, "Turkey".toList)] : List (Nat × Str)), e.1 ≠ 792 := by
  exact ⟨by decide, by decide⟩

/-- C1 amended: for queries that are not all-digits, a code returned by
resolution is a key present in the input mapping at the time of the call
(the all-digits path returns the parsed integer without any membership
check, see `c1_counterexample`). -/
theorem c1_amended (q : Str) (mapping : List (Nat × Str))
    (item_type : String) (code : Nat) (hd : isdigit q = false)
    (h : _get_code q mapping item_type = some code) :
    ∃ n, (code, n) ∈ mapping := by
  unfold _get_code at h
  rw [if_neg (by simp [hd])] at h
  unfold FuzzySearch.find_best_match at h
  simp only [if_pos rfl] at h
  rcases hf : mapping.find? (fun e => toLowerStr e.2 == toLowerStr q) with
    _ | e
  · rw [hf] at h
    rcases hs : FuzzySearch.search (toLowerStr q) mapping
      (if item_type == "country" then Rat.divInt 6 10 else Rat.divInt 5 10)
      (Rat.divInt 9 10) 5 with _ | ⟨c, rest⟩
    · rw [hs] at h
      cases h
    · rw [hs] at h
      cases h
      have hc : c ∈ FuzzySearch.search (toLowerStr q) mapping
          (if item_type == "country" then Rat.divInt 6 10
            else Rat.divInt 5 10) (Rat.divInt 9 10) 5 := by
        rw [hs]; exact List.mem_cons_self _ _
      rcases mem_search hc with ⟨e, he, hemit⟩
      rcases emitEntry_some hemit with ⟨h1, h2, -⟩
      exact ⟨e.2, by rw [h1, Prod.mk.eta]; exact he⟩
  · rw [hf] at h
    cases h
    exact ⟨e.2, by rw [Prod.mk.eta]; exact List.mem_of_find?_eq_some hf⟩

/-- C1 amended witness: the non-numeric query `"turkey"` resolves to code
10, which is a key of the mapping. -/
theorem c1_witness :
    isdigit "turkey".toList = false ∧
    ∃ n, (10, n) ∈ ([(10, "Turkey".toList)] : List (Nat × Str)) :=
  ⟨by decide,
    c1_amended "turkey".toList [(10, "Turkey".toList)] "country" 10
      (by decide) (by decide)⟩

/-- The backward extension stops as soon as its guard fails. -/
theorem extendBack_stop {a b : Str} {alo blo bi bj k : Nat}
    (h : ¬ (alo < bi ∧ blo < bj ∧ matchAt a b (bi - 1) (bj - 1))) :
    extendBack a b alo blo bi bj k = (bi, bj, k) := by
  cases bi with
  | zero => rfl
  | succ bi1 =>
    unfold extendBack
    rw [if_neg (by simpa using h)]

/-- The forward extension stops as soon as its guard fails, independently
of the remaining fuel. -/
theorem extendFwdGo_stop {a b : Str} {ahi bhi bi bj k : Nat}
    (h : ¬ (bi + k < ahi ∧ bj + k < bhi ∧ matchAt a b (bi + k) (bj + k))) :
    ∀ fuel, extendFwdGo a b ahi bhi fuel bi bj k = (bi, bj, k)
  | 0 => rfl
  | fuel + 1 => by
    unfold extendFwdGo
    rw [if_neg h]

/-- With an empty second string, `b2j` is empty. -/
theorem b2j_nil (c : Char) : b2j [] c = [] := rfl

/-- The DP loop leaves the best block unchanged when `b2j` is empty. -/
theorem dpLoop_b2j_nil (a : Str) (blo bhi : Nat) :
    ∀ (fuel i : Nat) (prev : Nat → Nat) (best : Nat × Nat × Nat),
      dpLoop (b2j []) a blo bhi i fuel prev best = best
  | 0, _, _, _ => rfl
  | fuel + 1, i, _, best =>
    dpLoop_b2j_nil a blo bhi fuel (i + 1) (fun _ => 0) best

/-- Searching against an empty `b` range finds nothing. -/
theorem findLongestMatch_nil_b (a : Str) (alo ahi : Nat) :
    findLongestMatch (b2j []) a [] alo ahi 0 0 = (alo, 0, 0) := by
  unfold findLongestMatch
  rw [dpLoop_b2j_nil]
  dsimp only
  rw [extendBack_stop (by simp)]
  dsimp only
  unfold extendFwd
  rw [extendFwdGo_stop (by simp)]

/-- Score of the empty string against a nonempty string is 0
(left argument empty). -/
theorem ratioQ_nil_left {x : Str} (hx : x ≠ []) : ratioQ [] x = 0 := by
  have hm : matchBlocks (b2j x) [] x = [] := rfl
  have hlen : x.length ≠ 0 := fun h => hx (List.length_eq_zero.mp h)
  unfold ratioQ
  rw [hm]
  rw [if_neg (by simpa using hlen)]
  simp [sumBlocks]

/-- Score of a nonempty string against the empty string is 0
(right argument empty). -/
theorem ratioQ_nil_right {x : Str} (hx : x ≠ []) : ratioQ x [] = 0 := by
  have hm : matchBlocks (b2j []) x [] = [] := by
    unfold matchBlocks
    cases hl : x.length + 1 with
    | zero => rfl
    | succ fuel =>
      unfold matchBlocksGo
      rw [show ([] : Str).length = 0 from rfl, findLongestMatch_nil_b]
      rw [if_pos rfl]
  have hlen : x.length ≠ 0 := fun h => hx (List.length_eq_zero.mp h)
  unfold ratioQ
  rw [hm]
  rw [if_neg (by simpa using hlen)]
  simp [sumBlocks]

/-- C5: for a mapping containing an entry whose lower-cased name equals the
lower-cased query, `find_best_match` returns that entry's code and name
with an empty candidate list via the exact-match path (the first such entry
in iteration order), and `_get_code` returns that code for non-numeric
queries. -/
theorem c5_exact_match (q : Str) (mapping : List (Nat × Str))
    (item_type : String)
    (h : ∃ e ∈ mapping, toLowerStr e.2 = toLowerStr q) :
    ∃ c n, (c, n) ∈ mapping ∧ toLowerStr n = toLowerStr q ∧
      FuzzySearch.find_best_match q mapping item_type true =
        (some c, some n, []) ∧
      (isdigit q = false → _get_code q mapping item_type = some c) := by
  have hs : (mapping.find? (fun e => toLowerStr e.2 == toLowerStr q)).isSome := by
    rcases h with ⟨e, he, heq⟩
    exact List.find?_isSome.mpr ⟨e, he, by simpa using heq⟩
  rcases ho : mapping.find? (fun e => toLowerStr e.2 == toLowerStr q) with _ | e
  · rw [ho] at hs; cases hs
  · have hmem := List.mem_of_find?_eq_some ho
    have hp : toLowerStr e.2 = toLowerStr q := by
      simpa using List.find?_some ho
    have hfbm : FuzzySearch.find_best_match q mapping item_type true =
        (some e.1, some e.2, []) := by
      unfold FuzzySearch.find_best_match
      simp only [if_true]
      rw [ho]
    refine ⟨e.1, e.2, by rwa [Prod.mk.eta], hp, hfbm, fun hd => ?_⟩
    unfold _get_code
    rw [if_neg (by simp [hd])]
    rw [hfbm]

/-- C5 witness: mapping `{10: "Turkey", 11: "Turkmenistan"}` with query
`"turkey"` resolves through the exact-match path. -/
theorem c5_witness :
    (∃ e ∈ ([(10, "Turkey".toList), (11, "Turkmenistan".toList)] :
        List (Nat × Str)), toLowerStr e.2 = toLowerStr "turkey".toList) ∧
    ∃ c n, (c, n) ∈ ([(10, "Turkey".toList), (11, "Turkmenistan".toList)] :
        List (Nat × Str)) ∧ toLowerStr n = toLowerStr "turkey".toList ∧
      FuzzySearch.find_best_match "turkey".toList
          [(10, "Turkey".toList), (11, "Turkmenistan".toList)] "country"
          true = (some c, some n, []) ∧
      (isdigit "turkey".toList = false →
        _get_code "turkey".toList
          [(10, "Turkey".toList), (11, "Turkmenistan".toList)] "country" =
          some c) :=
  ⟨by decide,
    c5_exact_match "turkey".toList
      [(10, "Turkey".toList), (11, "Turkmenistan".toList)] "country"
      (by decide)⟩

/-- C3: for a non-numeric query with no exact lower-cased name match, the
fuzzy matcher is invoked with threshold 0.6 for item type `"country"` and
0.5 for any other type (with partial score 0.9 and at most 5 results);
resolution returns the code of the first (top-ranked) candidate when the
candidate list is nonempty and `none` when it is empty — it is a total
function and cannot raise. -/
theorem c3_fuzzy_fallback (q : Str) (mapping : List (Nat × Str))
    (item_type : String) (hd : isdigit q = false)
    (hex : ∀ e ∈ mapping, toLowerStr e.2 ≠ toLowerStr q) :
    FuzzySearch.find_best_match q mapping item_type true =
      (none, none, FuzzySearch.search (toLowerStr q) mapping
        (if item_type == "country" then Rat.divInt 6 10 else Rat.divInt 5 10)
        (Rat.divInt 9 10) 5) ∧
    _get_code q mapping item_type =
      (FuzzySearch.search (toLowerStr q) mapping
        (if item_type == "country" then Rat.divInt 6 10 else Rat.divInt 5 10)
        (Rat.divInt 9 10) 5).head?.map Prod.fst := by
  have ho : mapping.find? (fun e => toLowerStr e.2 == toLowerStr q) = none :=
    List.find?_eq_none.mpr (fun e he => by simpa using hex e he)
  have hfbm : FuzzySearch.find_best_match q mapping item_type true =
      (none, none, FuzzySearch.search (toLowerStr q) mapping
        (if item_type == "country" then Rat.divInt 6 10 else Rat.divInt 5 10)
        (Rat.divInt 9 10) 5) := by
    unfold FuzzySearch.find_best_match
    simp only [if_true]
    rw [ho]
  refine ⟨hfbm, ?_⟩
  unfold _get_code
  rw [if_neg (by simp [hd])]
  rw [hfbm]
  cases FuzzySearch.search (toLowerStr q) mapping
      (if item_type == "country" then Rat.divInt 6 10 else Rat.divInt 5 10)
      (Rat.divInt 9 10) 5 with
  | nil => rfl
  | cons c r => rfl

/-- C3 witness: `"xyzxyz"` against `{1: "Turkey"}` has no exact match, the
fuzzy matcher returns no candidate, and resolution returns `none` without
raising. -/
theorem c3_witness :
    isdigit "xyzxyz".toList = false ∧
    _get_code "xyzxyz".toList [(1, "Turkey".toList)] "country" =
      (FuzzySearch.search (toLowerStr "xyzxyz".toList)
        [(1, "Turkey".toList)] (Rat.divInt 6 10) (Rat.divInt 9 10)
        5).head?.map Prod.fst ∧
    _get_code "xyzxyz".toList [(1, "Turkey".toList)] "country" = none :=
  ⟨by decide,
    by
      have h := (c3_fuzzy_fallback "xyzxyz".toList [(1, "Turkey".toList)]
        "country" (by decide) (by decide)).2
      simpa using h,
    by decide⟩

/-- With the empty query and a mapping of nonempty names, every entry is
emitted through the substring branch with the fixed partial score. -/
theorem searchMatches_nil_query (t p : ℚ) (ht : 0 < t) :
    ∀ (mapping : List (Nat × Str)), (∀ e ∈ mapping, e.2 ≠ ([] : Str)) →
      FuzzySearch.searchMatches [] mapping t p =
        mapping.map (fun e => (e.1, e.2, p))
  | [], _ => rfl
  | e :: es, h => by
    have hnl : toLowerStr e.2 ≠ [] := fun hcon =>
      h e (List.mem_cons_self _ _) (by simpa [toLowerStr] using hcon)
    have h0 : ratioQ [] (toLowerStr e.2) = 0 := ratioQ_nil_left hnl
    have hemit : FuzzySearch.emitEntry [] t p e = some (e.1, e.2, p) := by
      unfold FuzzySearch.emitEntry
      dsimp only
      rw [h0, if_neg (not_le.mpr ht), if_pos List.nil_infix]
    have ih := searchMatches_nil_query t p ht es
      (fun e2 he2 => h e2 (List.mem_cons_of_mem _ he2))
    unfold FuzzySearch.searchMatches at ih ⊢
    rw [show toLowerStr ([] : Str) = [] from rfl] at ih ⊢
    rw [List.filterMap_cons, hemit, List.map_cons, ih]

/-- C10: searching with the empty-string query over a mapping whose names
are all nonempty, with a positive threshold at most 1, emits every entry
via the substring branch (the empty string is an infix of every name and
scores 0, below the threshold), so the result has `min |mapping| m`
candidates, each carrying exactly the partial score `p`. -/
theorem c10_empty_query (mapping : List (Nat × Str)) (t p : ℚ) (m : Nat)
    (hnames : ∀ e ∈ mapping, e.2 ≠ ([] : Str)) (ht : 0 < t) (_ht1 : t ≤ 1) :
    (FuzzySearch.search [] mapping t p m).length = min mapping.length m ∧
    ∀ c ∈ FuzzySearch.search [] mapping t p m, c.2.2 = p := by
  have hmap := searchMatches_nil_query t p ht mapping hnames
  constructor
  · unfold FuzzySearch.search
    rw [List.length_take]
    unfold FuzzySearch.sortedMatches
    rw [(List.perm_insertionSort FuzzySearch.simGE _).length_eq, hmap,
      List.length_map, Nat.min_comm]
  · intro c hc
    have h1 : c ∈ FuzzySearch.sortedMatches [] mapping t p :=
      List.take_subset _ _ hc
    have h2 : c ∈ FuzzySearch.searchMatches [] mapping t p :=
      (List.perm_insertionSort FuzzySearch.simGE _).mem_iff.mp h1
    rw [hmap] at h2
    rcases List.mem_map.mp h2 with ⟨e, -, he⟩
    rw [← he]

/-- C10 witness: empty query over `{1: "a", 2: "bc"}` with threshold 0.6
and partial score 0.9 returns `min 2 5 = 2` candidates, each scored 0.9. -/
theorem c10_witness :
    (FuzzySearch.search [] [(1, "a".toList), (2, "bc".toList)]
        (Rat.divInt 6 10) (Rat.divInt 9 10) 5).length =
      min ([(1, "a".toList), (2, "bc".toList)] : List (Nat × Str)).length 5 ∧
    ∀ c ∈ FuzzySearch.search [] [(1, "a".toList), (2, "bc".toList)]
        (Rat.divInt 6 10) (Rat.divInt 9 10) 5, c.2.2 = Rat.divInt 9 10 :=
  c10_empty_query [(1, "a".toList), (2, "bc".toList)] (Rat.divInt 6 10)
    (Rat.divInt 9 10) 5 (by decide) (by decide) (by decide)

/-- C6: the returned sequence is the emitted candidate list sorted by
similarity in descending order (`simGE`), stably — candidates forming an
ordered pair of the emitted list, in particular ties, stay in that relative
order — and truncated to `max_results`; every candidate that the
truncation drops scores at most every returned candidate, so the returned
ones are the `max_results` highest-scoring. -/
theorem c6_ranking (q : Str) (mapping : List (Nat × Str)) (t p : ℚ)
    (m : Nat) :
    FuzzySearch.search q mapping t p m =
      (FuzzySearch.sortedMatches q mapping t p).take m ∧
    List.Perm (FuzzySearch.sortedMatches q mapping t p)
      (FuzzySearch.searchMatches q mapping t p) ∧
    (FuzzySearch.sortedMatches q mapping t p).Pairwise FuzzySearch.simGE ∧
    (∀ c d : Nat × Str × ℚ,
      List.Sublist [c, d] (FuzzySearch.searchMatches q mapping t p) →
      FuzzySearch.simGE c d →
      List.Sublist [c, d] (FuzzySearch.sortedMatches q mapping t p)) ∧
    ∀ x ∈ (FuzzySearch.sortedMatches q mapping t p).drop m,
      ∀ y ∈ FuzzySearch.search q mapping t p m, x.2.2 ≤ y.2.2 := by
  refine ⟨rfl, List.perm_insertionSort _ _,
    List.sorted_insertionSort _ _,
    fun c d hsub hcd => List.pair_sublist_insertionSort hcd hsub, ?_⟩
  intro x hx y hy
  have hs : (FuzzySearch.sortedMatches q mapping t p).Pairwise
      FuzzySearch.simGE := List.sorted_insertionSort _ _
  rw [← List.take_append_drop m (FuzzySearch.sortedMatches q mapping t p)]
    at hs
  exact (List.pairwise_append.mp hs).2.2 y hy x hx

/-- C6 witness: with mapping `{40: "Austria", 36: "Australia"}` and query
`"austra"`, the returned list is the sorted-then-truncated candidate
list, here with Austria (similarity 12/13) ranked above Australia
(similarity 4/5). -/
theorem c6_witness :
    FuzzySearch.search "austra".toList
        [(40, "Austria".toList), (36, "Australia".toList)]
        (Rat.divInt 5 10) (Rat.divInt 9 10) 5 =
      (FuzzySearch.sortedMatches "austra".toList
        [(40, "Austria".toList), (36, "Australia".toList)]
        (Rat.divInt 5 10) (Rat.divInt 9 10)).take 5 ∧
    FuzzySearch.search "austra".toList
        [(40, "Austria".toList), (36, "Australia".toList)]
        (Rat.divInt 5 10) (Rat.divInt 9 10) 5 =
      [(40, "Austria".toList, Rat.divInt 12 13),
        (36, "Australia".toList, Rat.divInt 4 5)] :=
  ⟨(c6_ranking "austra".toList
      [(40, "Austria".toList), (36, "Australia".toList)]
      (Rat.divInt 5 10) (Rat.divInt 9 10) 5).1,
    by decide⟩

/-- The inner loop preserves the row and best-block range invariants. -/
theorem innerLoop_ok {blo bhi alo ahi cnt i : Nat} {prev : Nat → Nat}
    (hi : i = alo + cnt) (hia : i < ahi) (hprev : rowOK blo cnt prev)
    (js : List Nat) :
    ∀ (row : Nat → Nat) (best : Nat × Nat × Nat),
      rowOK blo (cnt + 1) row → bestOK alo ahi blo bhi best →
      rowOK blo (cnt + 1) (innerLoop i blo bhi prev js row best).1 ∧
      bestOK alo ahi blo bhi (innerLoop i blo bhi prev js row best).2 := by
  induction js with
  | nil => intro row best hrow hbest; exact ⟨hrow, hbest⟩
  | cons j js ih =>
    intro row best hrow hbest
    by_cases h1 : j < blo
    · simp only [innerLoop, if_pos h1]
      exact ih row best hrow hbest
    · by_cases h2 : bhi ≤ j
      · simp only [innerLoop, if_neg h1, if_pos h2]
        exact ⟨hrow, hbest⟩
      · simp only [innerLoop, if_neg h1, if_neg h2]
        have hKle : kval prev j ≤ cnt + 1 ∧ blo + kval prev j ≤ j + 1 := by
          cases j with
          | zero =>
            show (1 : Nat) ≤ cnt + 1 ∧ blo + 1 ≤ 0 + 1
            omega
          | succ j1 =>
            show prev j1 + 1 ≤ cnt + 1 ∧ blo + (prev j1 + 1) ≤ j1 + 1 + 1
            rcases hprev j1 with ⟨ha, hb⟩
            rcases Nat.eq_zero_or_pos (prev j1) with h0 | h0
            · omega
            · have := hb (by omega); omega
        apply ih
        · intro j2
          dsimp only
          by_cases hj : j2 = j
          · subst hj
            rw [if_pos rfl]
            omega
          · rw [if_neg hj]
            exact hrow j2
        · by_cases hup : best.2.2 < kval prev j
          · rw [if_pos hup]
            unfold bestOK
            dsimp only
            omega
          · rw [if_neg hup]
            exact hbest

/-- The DP loop preserves the best-block range invariant. -/
theorem dpLoop_ok {alo ahi blo bhi : Nat} (bjf : Char → List Nat)
    (a : Str) :
    ∀ (fuel i cnt : Nat) (prev : Nat → Nat) (best : Nat × Nat × Nat),
      i = alo + cnt → i + fuel ≤ ahi → rowOK blo cnt prev →
      bestOK alo ahi blo bhi best →
      bestOK alo ahi blo bhi (dpLoop bjf a blo bhi i fuel prev best)
  | 0, _, _, _, _, _, _, _, hbest => hbest
  | fuel + 1, i, cnt, prev, best, hi, hfa, hprev, hbest => by
    simp only [dpLoop]
    have h := innerLoop_ok hi (by omega) hprev (bjf (dchar a i))
      (fun _ => 0) best (fun j => ⟨Nat.zero_le _, fun h0 => absurd rfl h0⟩)
      hbest
    exact dpLoop_ok bjf a fuel (i + 1) (cnt + 1) _ _ (by omega) (by omega)
      h.1 h.2

/-- The backward extension preserves the best-block range invariant. -/
theorem extendBack_ok {a b : Str} {alo ahi blo bhi : Nat} :
    ∀ (bi bj k : Nat), bestOK alo ahi blo bhi (bi, bj, k) →
      bestOK alo ahi blo bhi (extendBack a b alo blo bi bj k)
  | 0, _, _, h => h
  | bi + 1, bj, k, h => by
    unfold extendBack
    by_cases hg : alo < bi + 1 ∧ blo < bj ∧ matchAt a b bi (bj - 1)
    · rw [if_pos hg]
      apply extendBack_ok bi (bj - 1) (k + 1)
      obtain ⟨h1, h2, h3, h4⟩ := h
      obtain ⟨g1, g2, -⟩ := hg
      dsimp only at h1 h2 h3 h4
      unfold bestOK
      dsimp only
      omega
    · rw [if_neg hg]; exact h

/-- The forward extension preserves the best-block range invariant. -/
theorem extendFwdGo_ok {a b : Str} {alo ahi blo bhi : Nat} :
    ∀ (fuel bi bj k : Nat), bestOK alo ahi blo bhi (bi, bj, k) →
      bestOK alo ahi blo bhi (extendFwdGo a b ahi bhi fuel bi bj k)
  | 0, _, _, _, h => h
  | fuel + 1, bi, bj, k, h => by
    unfold extendFwdGo
    by_cases hg : bi + k < ahi ∧ bj + k < bhi ∧ matchAt a b (bi + k) (bj + k)
    · rw [if_pos hg]
      apply extendFwdGo_ok fuel bi bj (k + 1)
      obtain ⟨h1, h2, h3, h4⟩ := h
      obtain ⟨g1, g2, -⟩ := hg
      dsimp only at h1 h2 h3 h4
      unfold bestOK
      dsimp only
      omega
    · rw [if_neg hg]; exact h

/-- The block found by `find_longest_match` lies inside the requested
ranges. -/
theorem findLongestMatch_ok (bjf : Char → List Nat) (a b : Str)
    {alo ahi blo bhi : Nat} (h1 : alo ≤ ahi) (h2 : blo ≤ bhi) :
    bestOK alo ahi blo bhi (findLongestMatch bjf a b alo ahi blo bhi) := by
  unfold findLongestMatch
  dsimp only
  have hd : bestOK alo ahi blo bhi
      (dpLoop bjf a blo bhi alo (ahi - alo) (fun _ => 0) (alo, blo, 0)) :=
    dpLoop_ok bjf a (ahi - alo) alo 0 (fun _ => 0) (alo, blo, 0) rfl
      (by omega) (fun j => ⟨Nat.le_refl 0, fun h0 => absurd rfl h0⟩)
      ⟨Nat.le_refl alo, by dsimp only; omega, Nat.le_refl blo,
        by dsimp only; omega⟩
  rcases hD : dpLoop bjf a blo bhi alo (ahi - alo) (fun _ => 0)
    (alo, blo, 0) with ⟨bi, bj, k⟩
  rw [hD] at hd
  have he : bestOK alo ahi blo bhi (extendBack a b alo blo bi bj k) :=
    extendBack_ok bi bj k hd
  rcases hE : extendBack a b alo blo bi bj k with ⟨ei, ej, ek⟩
  rw [hE] at he
  unfold extendFwd
  exact extendFwdGo_ok _ ei ej ek he

theorem sumBlocks_append (l1 l2 : List (Nat × Nat × Nat)) :
    sumBlocks (l1 ++ l2) = sumBlocks l1 + sumBlocks l2 := by
  simp [sumBlocks]

/-- The total matched size over a range is bounded by both range widths. -/
theorem matchBlocksGo_sum_le (bjf : Char → List Nat) (a b : Str) :
    ∀ (fuel alo ahi blo bhi : Nat), alo ≤ ahi → blo ≤ bhi →
      sumBlocks (matchBlocksGo bjf a b fuel alo ahi blo bhi) + alo ≤ ahi ∧
      sumBlocks (matchBlocksGo bjf a b fuel alo ahi blo bhi) + blo ≤ bhi
  | 0, alo, ahi, blo, bhi, h1, h2 => by
    constructor <;> simp [matchBlocksGo, sumBlocks] <;> omega
  | fuel + 1, alo, ahi, blo, bhi, h1, h2 => by
    simp only [matchBlocksGo]
    have hb := findLongestMatch_ok bjf a b h1 h2
    rcases hR : findLongestMatch bjf a b alo ahi blo bhi with ⟨bi, bj, k⟩
    rw [hR] at hb
    obtain ⟨o1, o2, o3, o4⟩ := hb
    dsimp only at o1 o2 o3 o4
    dsimp only
    by_cases hk : k = 0
    · rw [if_pos hk]
      constructor <;> · simp only [sumBlocks, List.map_nil, List.sum_nil]; omega
    · rw [if_neg hk]
      have hL := matchBlocksGo_sum_le bjf a b fuel alo bi blo bj o1 o3
      have hRt := matchBlocksGo_sum_le bjf a b fuel (bi + k) ahi (bj + k)
        bhi o2 o4
      rw [sumBlocks_append]
      have hc : sumBlocks ((bi, bj, k) ::
          matchBlocksGo bjf a b fuel (bi + k) ahi (bj + k) bhi) =
          k + sumBlocks (matchBlocksGo bjf a b fuel (bi + k) ahi (bj + k)
            bhi) := by
        simp [sumBlocks]
      rw [hc]
      omega

/-- The total matched size is at most the length of either string. -/
theorem sumBlocks_matchBlocks_le (bjf : Char → List Nat) (a b : Str) :
    sumBlocks (matchBlocks bjf a b) ≤ a.length ∧
    sumBlocks (matchBlocks bjf a b) ≤ b.length := by
  have h := matchBlocksGo_sum_le bjf a b (a.length + 1) 0 a.length 0
    b.length (Nat.zero_le _) (Nat.zero_le _)
  unfold matchBlocks
  omega

/-- Similarity scores are nonnegative. -/
theorem ratioQ_nonneg (a b : Str) : 0 ≤ ratioQ a b := by
  unfold ratioQ
  split
  · norm_num
  · rw [Rat.divInt_eq_div]
    positivity

/-- Similarity scores are at most 1. -/
theorem ratioQ_le_one (a b : Str) : ratioQ a b ≤ 1 := by
  have hM := sumBlocks_matchBlocks_le (b2j b) a b
  unfold ratioQ
  split
  · exact le_refl 1
  · rename_i hlen
    rw [Rat.divInt_eq_div]
    rw [div_le_one (by push_cast; exact_mod_cast by omega)]
    push_cast
    exact_mod_cast by omega

/-- C7 as stated is false: with `partial_match_score = 2` the substring
branch emits a candidate whose similarity 2 lies outside `[0, 1]`. -/
theorem c7_counterexample :
    FuzzySearch.search "a".toList [(1, "ab".toList)] (Rat.divInt 7 10)
        (Rat.divInt 2 1) 5 = [(1, "ab".toList, Rat.divInt 2 1)] ∧
    ¬ (Rat.divInt 2 1 ≤ 1) := by decide

/-- C7 amended: whenever the caller's `partial_match_score` lies in
`[0, 1]` (as the source's default 0.9 does), every candidate returned by
`search` has its similarity in the closed interval `[0, 1]`. -/
theorem c7_amended (q : Str) (mapping : List (Nat × Str)) (t p : ℚ)
    (m : Nat) (hp0 : 0 ≤ p) (hp1 : p ≤ 1) :
    ∀ c ∈ FuzzySearch.search q mapping t p m, 0 ≤ c.2.2 ∧ c.2.2 ≤ 1 := by
  intro c hc
  rcases mem_search hc with ⟨e, -, hemit⟩
  rcases emitEntry_some hemit with ⟨-, -, hv | hv⟩
  · rw [hv]; exact ⟨ratioQ_nonneg _ _, ratioQ_le_one _ _⟩
  · rw [hv]; exact ⟨hp0, hp1⟩

/-- C7 amended witness: with the default partial score 0.9, the candidates
returned for `"turk"` against `{11: "Turkmenistan"}` all score within
`[0, 1]`. -/
theorem c7_witness :
    (0 ≤ Rat.divInt 9 10 ∧ Rat.divInt 9 10 ≤ 1) ∧
    ∀ c ∈ FuzzySearch.search "turk".toList [(11, "Turkmenistan".toList)]
        (Rat.divInt 6 10) (Rat.divInt 9 10) 5, 0 ≤ c.2.2 ∧ c.2.2 ≤ 1 :=
  ⟨⟨by decide, by decide⟩,
    c7_amended "turk".toList [(11, "Turkmenistan".toList)]
      (Rat.divInt 6 10) (Rat.divInt 9 10) 5 (by decide) (by decide)⟩

/-! ### Identity of the scorer on equal strings -/

/-- Membership in `b2j`. -/
theorem mem_b2j {b : Str} {c : Char} {j : Nat} :
    j ∈ b2j b c ↔ isPopular b c = false ∧ b.get? j = some c := by
  unfold b2j
  by_cases hp : isPopular b c
  · rw [if_pos hp]
    simp [hp]
  · rw [if_neg hp]
    rw [List.mem_filter, List.mem_range]
    constructor
    · rintro ⟨-, h2⟩
      exact ⟨Bool.of_not_eq_true hp, by simpa using h2⟩
    · rintro ⟨-, h2⟩
      refine ⟨?_, by simpa using h2⟩
      rcases List.get?_eq_some.mp h2 with ⟨hlt, -⟩
      exact hlt

/-- Positions in `b2j` are in range. -/
theorem mem_b2j_lt {b : Str} {c : Char} {j : Nat} (h : j ∈ b2j b c) :
    j < b.length := by
  rcases List.get?_eq_some.mp (mem_b2j.mp h).2 with ⟨hlt, -⟩
  exact hlt

/-- Positions in `b2j` are listed in strictly increasing order. -/
theorem b2j_sorted (b : Str) (c : Char) :
    (b2j b c).Pairwise (· < ·) := by
  unfold b2j
  by_cases hp : isPopular b c
  · rw [if_pos hp]; exact List.Pairwise.nil
  · rw [if_neg hp]
    exact (List.pairwise_lt_range _).filter _

/-- An in-range position reads back through `dchar`. -/
theorem dchar_get? {s : Str} {i : Nat} (h : i < s.length) :
    s.get? i = some (dchar s i) := by
  rcases hx : s.get? i with _ | c
  · rw [List.get?_eq_none] at hx
    omega
  · unfold dchar
    unfold List.getD
    rw [hx]
    rfl

/-- The row-update guard of the DP on `(s, s)` in symmetric form. -/
theorem guard_iff (s : Str) (i j : Nat) :
    (i < s.length ∧ j ∈ b2j s (dchar s i)) ↔ selfCell s i j := by
  unfold selfCell
  constructor
  · rintro ⟨hi, hj⟩
    rcases mem_b2j.mp hj with ⟨hpop, hget⟩
    have hjl : j < s.length := mem_b2j_lt hj
    have : dchar s j = dchar s i := by
      have h2 := dchar_get? hjl
      rw [hget] at h2
      exact (Option.some_injective _ h2).symm
    exact ⟨hi, hjl, this.symm, hpop⟩
  · rintro ⟨hi, hjl, hc, hpop⟩
    refine ⟨hi, mem_b2j.mpr ⟨hpop, ?_⟩⟩
    rw [dchar_get? hjl, hc]

/-- The guard is symmetric in the two positions. -/
theorem selfCell_symm {s : Str} {i j : Nat} :
    selfCell s i j ↔ selfCell s j i := by
  unfold selfCell
  constructor <;> rintro ⟨h1, h2, h3, h4⟩ <;>
    exact ⟨h2, h1, h3.symm, by rwa [← h3]⟩

/-- A cell satisfying the guard yields the guard on the diagonal of its
row. -/
theorem selfCell_diag {s : Str} {i j : Nat} (h : selfCell s i j) :
    selfCell s i i :=
  ⟨h.1, h.1, rfl, h.2.2.2⟩

/-- Unfolding `chrow` at a successor row through `kval`. -/
theorem chrow_succ (s : Str) (i j : Nat) :
    chrow s (i + 1) j =
      if selfCell s i j then kval (chrow s i) j else 0 := by
  have h1 : chrow s (i + 1) j =
      if i < s.length ∧ j ∈ b2j s (dchar s i) then kval (chrow s i) j
      else 0 := by
    cases j with
    | zero => rfl
    | succ j1 => rfl
  rw [h1]
  exact if_congr (guard_iff s i j) rfl rfl

/-- Function `kval` only reads the previous row pointwise. -/
theorem kval_congr {p q : Nat → Nat} (h : ∀ x, p x = q x) (j : Nat) :
    kval p j = kval q j := by
  cases j with
  | zero => rfl
  | succ j1 => show p j1 + 1 = q j1 + 1; rw [h j1]

/-- Chain values are symmetric in row and column. -/
theorem chrow_symm (s : Str) : ∀ i j, chrow s (i + 1) j = chrow s (j + 1) i := by
  intro i
  induction i with
  | zero =>
    intro j
    rw [chrow_succ, chrow_succ]
    by_cases hc : selfCell s 0 j
    · rw [if_pos hc, if_pos (selfCell_symm.mp hc)]
      cases j with
      | zero => rfl
      | succ j1 => show chrow s 0 j1 + 1 = 1; rfl
    · rw [if_neg hc, if_neg fun h => hc (selfCell_symm.mpr h)]
  | succ i ih =>
    intro j
    rw [chrow_succ, chrow_succ]
    by_cases hc : selfCell s (i + 1) j
    · rw [if_pos hc, if_pos (selfCell_symm.mp hc)]
      cases j with
      | zero => rfl
      | succ j1 =>
        show chrow s (i + 1) j1 + 1 = chrow s (j1 + 1) i + 1
        rw [ih j1]
    · rw [if_neg hc, if_neg fun h => hc (selfCell_symm.mpr h)]

/-- Chain values are dominated by the diagonal value of their row. -/
theorem chrow_diag_dom (s : Str) : ∀ i j, chrow s (i + 1) j ≤ chrow s (i + 1) i := by
  intro i
  induction i with
  | zero =>
    intro j
    rw [chrow_succ, chrow_succ]
    by_cases hc : selfCell s 0 j
    · rw [if_pos hc, if_pos (selfCell_diag hc)]
      cases j with
      | zero => exact Nat.le_refl _
      | succ j1 => show chrow s 0 j1 + 1 ≤ 1; exact Nat.le_refl _
    · rw [if_neg hc]
      exact Nat.zero_le _
  | succ i ih =>
    intro j
    rw [chrow_succ, chrow_succ]
    by_cases hc : selfCell s (i + 1) j
    · rw [if_pos hc, if_pos (selfCell_diag hc)]
      cases j with
      | zero =>
        show (1 : Nat) ≤ chrow s (i + 1) i + 1
        omega
      | succ j1 =>
        show chrow s (i + 1) j1 + 1 ≤ chrow s (i + 1) i + 1
        have := ih j1
        omega
    · rw [if_neg hc]
      exact Nat.zero_le _

/-- A column outside `b2j` has chain value 0. -/
theorem chrow_zero_of_not_mem {s : Str} {i j : Nat}
    (hj : j ∉ b2j s (dchar s i)) : chrow s (i + 1) j = 0 := by
  rw [chrow_succ, if_neg]
  intro h
  exact hj ((guard_iff s i j).mpr h).2

/-- The inner loop on `(s, s)` over the full ranges: after processing a
suffix `js` of the (sorted) position list, the produced row equals the
chain values of row `i`, the best block stays diagonal, and its size
dominates every chain value of processed rows and cells. -/
theorem innerLoop_self (s : Str) (i : Nat) (hi : i < s.length)
    (prev : Nat → Nat) (hprev : ∀ j, prev j = chrow s i j) :
    ∀ (js : List Nat) (row : Nat → Nat) (best : Nat × Nat × Nat),
      js.Pairwise (· < ·) →
      (∀ j ∈ js, j ∈ b2j s (dchar s i)) →
      (∀ j, row j =
        if j ∈ b2j s (dchar s i) ∧ j ∉ js then chrow s (i + 1) j else 0) →
      best.1 = best.2.1 →
      (∀ i2 j, i2 < i → chrow s (i2 + 1) j ≤ best.2.2) →
      (∀ j, j ∈ b2j s (dchar s i) → j ∉ js →
        chrow s (i + 1) j ≤ best.2.2) →
      (i ∈ js ∨ chrow s (i + 1) i ≤ best.2.2) →
      (∀ j, (innerLoop i 0 s.length prev js row best).1 j =
        chrow s (i + 1) j) ∧
      (innerLoop i 0 s.length prev js row best).2.1 =
        (innerLoop i 0 s.length prev js row best).2.2.1 ∧
      (∀ i2 j, i2 < i → chrow s (i2 + 1) j ≤
        (innerLoop i 0 s.length prev js row best).2.2.2) ∧
      (∀ j, chrow s (i + 1) j ≤
        (innerLoop i 0 s.length prev js row best).2.2.2) := by
  intro js
  induction js with
  | nil =>
    intro row best _ _ hrow hd hdomlt hproc _
    refine ⟨?_, hd, hdomlt, ?_⟩
    · intro j
      show row j = chrow s (i + 1) j
      rw [hrow j]
      by_cases hj : j ∈ b2j s (dchar s i)
      · rw [if_pos ⟨hj, List.not_mem_nil j⟩]
      · rw [if_neg (by tauto), chrow_zero_of_not_mem hj]
    · intro j
      show chrow s (i + 1) j ≤ best.2.2
      by_cases hj : j ∈ b2j s (dchar s i)
      · exact hproc j hj (List.not_mem_nil j)
      · rw [chrow_zero_of_not_mem hj]
        exact Nat.zero_le _
  | cons j js ih =>
    intro row best hsort hsub hrow hd hdomlt hproc hdiagcell
    have hjb : j ∈ b2j s (dchar s i) := hsub j (List.mem_cons_self _ _)
    have hjlt : j < s.length := mem_b2j_lt hjb
    have hjtail : ∀ x ∈ js, j < x :=
      fun x hx => List.rel_of_pairwise_cons hsort hx
    have hjnin : j ∉ js := fun h => absurd (hjtail j h) (lt_irrefl j)
    have hsort2 := List.Pairwise.of_cons hsort
    have hsub2 : ∀ x ∈ js, x ∈ b2j s (dchar s i) :=
      fun x hx => hsub x (List.mem_cons_of_mem _ hx)
    have hk : kval prev j = chrow s (i + 1) j := by
      rw [kval_congr hprev j, chrow_succ s i j,
        if_pos ((guard_iff s i j).mp ⟨hi, hjb⟩)]
    have hrow2 : ∀ j2, (if j2 = j then kval prev j else row j2) =
        if j2 ∈ b2j s (dchar s i) ∧ j2 ∉ js then chrow s (i + 1) j2
        else 0 := by
      intro j2
      by_cases hj2 : j2 = j
      · subst hj2
        rw [if_pos rfl, if_pos ⟨hjb, hjnin⟩]
        exact hk
      · rw [if_neg hj2, hrow j2]
        exact if_congr (by simp [List.mem_cons, hj2]) rfl rfl
    simp only [innerLoop, if_neg (Nat.not_lt_zero j),
      if_neg (not_le.mpr hjlt)]
    rcases Nat.lt_trichotomy j i with hji | hji | hji
    · -- processed column left of the diagonal: never updates the best
      have hble : kval prev j ≤ best.2.2 := by
        rw [hk, chrow_symm s i j]
        exact le_trans (chrow_diag_dom s j i) (hdomlt j j hji)
      rw [if_neg (not_lt.mpr hble)]
      apply ih _ best hsort2 hsub2 hrow2 hd hdomlt
      · intro j2 hj2b hj2nin
        by_cases hj2 : j2 = j
        · subst hj2
          rw [← hk]
          exact hble
        · exact hproc j2 hj2b (by simp [List.mem_cons, hj2, hj2nin])
      · rcases hdiagcell with hin | hb
        · rcases List.mem_cons.mp hin with heq | hin2
          · omega
          · exact Or.inl hin2
        · exact Or.inr hb
    · -- the diagonal column: the only cell that may update the best
      subst hji
      by_cases hup : best.2.2 < kval prev j
      · rw [if_pos hup]
        apply ih _ _ hsort2 hsub2 hrow2 rfl
        · intro i2 j2 h2
          have := hdomlt i2 j2 h2
          dsimp only
          omega
        · intro j2 hj2b hj2nin
          dsimp only
          by_cases hj2 : j2 = j
          · subst hj2
            rw [← hk]
          · have := hproc j2 hj2b (by simp [List.mem_cons, hj2, hj2nin])
            omega
        · refine Or.inr ?_
          dsimp only
          rw [← hk]
      · rw [if_neg hup]
        have hble : chrow s (j + 1) j ≤ best.2.2 := by
          rw [← hk]
          omega
        apply ih _ best hsort2 hsub2 hrow2 hd hdomlt
        · intro j2 hj2b hj2nin
          by_cases hj2 : j2 = j
          · subst hj2
            exact hble
          · exact hproc j2 hj2b (by simp [List.mem_cons, hj2, hj2nin])
        · exact Or.inr hble
    · -- processed column right of the diagonal: the diagonal cell was
      -- already processed, so the best already dominates this cell
      have hdcell : chrow s (i + 1) i ≤ best.2.2 := by
        rcases hdiagcell with hin | hb
        · rcases List.mem_cons.mp hin with heq | hin2
          · omega
          · have := hjtail i hin2
            omega
        · exact hb
      have hble : kval prev j ≤ best.2.2 := by
        rw [hk]
        exact le_trans (chrow_diag_dom s i j) hdcell
      rw [if_neg (not_lt.mpr hble)]
      apply ih _ best hsort2 hsub2 hrow2 hd hdomlt
      · intro j2 hj2b hj2nin
        by_cases hj2 : j2 = j
        · subst hj2
          rw [← hk]
          exact hble
        · exact hproc j2 hj2b (by simp [List.mem_cons, hj2, hj2nin])
      · exact Or.inr hdcell

/-- The DP loop on `(s, s)` over the full ranges keeps the best block
diagonal. -/
theorem dpLoop_self (s : Str) :
    ∀ (fuel i : Nat) (prev : Nat → Nat) (best : Nat × Nat × Nat),
      i + fuel = s.length →
      (∀ j, prev j = chrow s i j) →
      best.1 = best.2.1 →
      (∀ i2 j, i2 < i → chrow s (i2 + 1) j ≤ best.2.2) →
      (dpLoop (b2j s) s 0 s.length i fuel prev best).1 =
        (dpLoop (b2j s) s 0 s.length i fuel prev best).2.1
  | 0, _, _, _, _, _, hdd, _ => hdd
  | fuel + 1, i, prev, best, hlen, hprev, hdd, hdom => by
    simp only [dpLoop]
    have hi : i < s.length := by omega
    have hdiagcell : i ∈ b2j s (dchar s i) ∨
        chrow s (i + 1) i ≤ best.2.2 := by
      by_cases hm : i ∈ b2j s (dchar s i)
      · exact Or.inl hm
      · exact Or.inr (by rw [chrow_zero_of_not_mem hm]; exact Nat.zero_le _)
    have h := innerLoop_self s i hi prev hprev (b2j s (dchar s i))
      (fun _ => 0) best (b2j_sorted s (dchar s i)) (fun x hx => hx)
      (fun j => by
        rw [if_neg]
        rintro ⟨h1, h2⟩
        exact h2 h1)
      hdd hdom (fun j hjb hjn => absurd hjb hjn) hdiagcell
    exact dpLoop_self s fuel (i + 1) _ _ (by omega) h.1 h.2.1
      (fun i2 j h2 => by
        rcases Nat.lt_succ_iff_lt_or_eq.mp h2 with h3 | h3
        · exact h.2.2.1 i2 j h3
        · subst h3
          exact h.2.2.2 j)

/-- Comparison `a[i] == a[i]` holds for in-range positions. -/
theorem matchAt_self {s : Str} {i : Nat} (h : i < s.length) :
    matchAt s s i i = true := by
  unfold matchAt
  rw [dchar_get? h]
  show (dchar s i == dchar s i) = true
  exact beq_self_eq_true _

/-- On `(s, s)` the backward extension carries a diagonal block all the
way back to the start. -/
theorem extendBack_self (s : Str) :
    ∀ (d k : Nat), d + k ≤ s.length →
      extendBack s s 0 0 d d k = (0, 0, d + k)
  | 0, k, _ => by simp [extendBack]
  | d + 1, k, h => by
    unfold extendBack
    rw [if_pos ⟨Nat.succ_pos d, Nat.succ_pos d, matchAt_self (by omega)⟩]
    simp only [Nat.add_sub_cancel]
    rw [extendBack_self s d (k + 1) (by omega)]
    rw [show d + (k + 1) = d + 1 + k from by omega]

/-- On `(s, s)` the forward extension carries a diagonal block starting at
0 all the way to the end. -/
theorem extendFwdGo_self (s : Str) :
    ∀ (fuel m : Nat), fuel + m = s.length →
      extendFwdGo s s s.length s.length fuel 0 0 m = (0, 0, s.length)
  | 0, m, h => by
    simp only [extendFwdGo]
    rw [show m = s.length from by omega]
  | fuel + 1, m, h => by
    unfold extendFwdGo
    rw [if_pos ⟨by omega, by omega,
      by simpa using matchAt_self (show m < s.length from by omega)⟩]
    exact extendFwdGo_self s fuel (m + 1) (by omega)

/-- Function `find_longest_match` on `(s, s)` over the full ranges returns the
whole string as a single block: whatever diagonal block the DP finds, the
extension loops stretch it to the full range. -/
theorem findLongestMatch_self (s : Str) :
    findLongestMatch (b2j s) s s 0 s.length 0 s.length =
      (0, 0, s.length) := by
  unfold findLongestMatch
  dsimp only
  have hdd := dpLoop_self s (s.length - 0) 0 (fun _ => 0) (0, 0, 0)
    (by omega) (fun _ => rfl) rfl
    (fun i2 _ h => absurd h (Nat.not_lt_zero i2))
  have hbb := @dpLoop_ok 0 s.length 0 s.length (b2j s) s (s.length - 0) 0 0
    (fun _ => 0) (0, 0, 0) rfl (by omega)
    (fun _ => ⟨Nat.le_refl 0, fun h0 => absurd rfl h0⟩)
    ⟨Nat.le_refl 0, by dsimp only; omega, Nat.le_refl 0,
      by dsimp only; omega⟩
  rcases hD : dpLoop (b2j s) s 0 s.length 0 (s.length - 0) (fun _ => 0)
    (0, 0, 0) with ⟨bi, bj, k⟩
  rw [hD] at hdd hbb
  have h1 : bi = bj := hdd
  subst h1
  have hle : bi + k ≤ s.length := hbb.2.1
  dsimp only
  rw [extendBack_self s bi k hle]
  dsimp only
  unfold extendFwd
  exact extendFwdGo_self s (s.length - (0 + (bi + k))) (bi + k) (by omega)

/-- Function `find_longest_match` of an empty `a`-range finds nothing. -/
theorem flm_empty_a (bjf : Char → List Nat) (a b : Str)
    {alo ahi blo bhi : Nat} (h : ahi ≤ alo) :
    findLongestMatch bjf a b alo ahi blo bhi = (alo, blo, 0) := by
  unfold findLongestMatch
  rw [show ahi - alo = 0 from by omega]
  simp only [dpLoop]
  rw [extendBack_stop (fun hcon => absurd hcon.1 (lt_irrefl alo))]
  unfold extendFwd
  rw [extendFwdGo_stop (fun hcon => absurd hcon.1 (by omega))]

/-- Function `get_matching_blocks` of an empty `a`-range is empty. -/
theorem matchBlocksGo_empty_a (bjf : Char → List Nat) (a b : Str) :
    ∀ (fuel : Nat) {alo ahi blo bhi : Nat}, ahi ≤ alo →
      matchBlocksGo bjf a b fuel alo ahi blo bhi = []
  | 0, _, _, _, _, _ => rfl
  | fuel + 1, alo, ahi, blo, bhi, h => by
    simp only [matchBlocksGo]
    rw [flm_empty_a bjf a b h]
    dsimp only
    rw [if_pos rfl]

/-- The scorer is 1 on every pair of equal strings, including behind the
autojunk heuristic: the DP's best block is always diagonal on `(s, s)`,
and the extension loops stretch a diagonal block to the whole string. -/
theorem ratioQ_self (s : Str) : ratioQ s s = 1 := by
  by_cases hn : s.length = 0
  · have hnil : s = [] := List.length_eq_zero.mp hn
    subst hnil
    rfl
  · have hmb : matchBlocks (b2j s) s s = [(0, 0, s.length)] := by
      unfold matchBlocks
      simp only [matchBlocksGo]
      rw [findLongestMatch_self s]
      dsimp only
      rw [if_neg hn]
      rw [matchBlocksGo_empty_a (b2j s) s s s.length (Nat.le_refl 0)]
      rw [matchBlocksGo_empty_a (b2j s) s s s.length
        (show s.length ≤ 0 + s.length from by omega)]
      rfl
    unfold ratioQ
    rw [hmb]
    rw [if_neg (by omega)]
    have hs : sumBlocks [(0, 0, s.length)] = s.length := by
      simp [sumBlocks]
    rw [hs, Rat.divInt_eq_div]
    have hne : (s.length : ℚ) ≠ 0 := Nat.cast_ne_zero.mpr hn
    push_cast
    rw [show ((s.length : ℚ) + s.length) = 2 * s.length from by ring]
    exact div_self (mul_ne_zero two_ne_zero hne)

/-- C9: the scorer's identity and empty-string edge cases: every string
scores 1.0 against itself (including the empty string against itself), and
the empty string scores 0.0 against every nonempty string. -/
theorem c9_identity_and_empty :
    (∀ s : Str, ratioQ s s = 1) ∧
    ∀ x : Str, x ≠ [] → ratioQ [] x = 0 :=
  ⟨ratioQ_self, fun _ hx => ratioQ_nil_left hx⟩

/-- C9 witness: `score("abc","abc") = 1`, `score("","") = 1` and
`score("","x") = 0`. -/
theorem c9_witness :
    ratioQ "abc".toList "abc".toList = 1 ∧ ratioQ [] [] = 1 ∧
    ("x".toList ≠ ([] : Str) ∧ ratioQ [] "x".toList = 0) :=
  ⟨c9_identity_and_empty.1 "abc".toList, c9_identity_and_empty.1 [],
    by decide, c9_identity_and_empty.2 "x".toList (by decide)⟩

/-- C8 as stated is false: the scorer is not symmetric.
`score("ab", "bacb") = 2/3` (the greedy pass matches `a` and then `b` in
the right remainder), while `score("bacb", "ab") = 1/3` (the tie-break
picks the earliest maximal block in the first string, leaving remainders
with no further matches). -/
theorem c8_counterexample :
    ratioQ "ab".toList "bacb".toList ≠ ratioQ "bacb".toList "ab".toList :=
  by decide

/-- C8 amended: the scorer need not be symmetric for distinct nonempty
strings; symmetry does hold in the degenerate cases — equal arguments
(both sides 1) and an empty argument on either side (both sides agree). -/
theorem c8_amended (a b : Str) (h : a = b ∨ a = [] ∨ b = []) :
    ratioQ a b = ratioQ b a := by
  rcases h with rfl | rfl | rfl
  · rfl
  · by_cases hb : b = []
    · subst hb; rfl
    · rw [ratioQ_nil_left hb, ratioQ_nil_right hb]
  · by_cases ha : a = []
    · subst ha; rfl
    · rw [ratioQ_nil_left ha, ratioQ_nil_right ha]

/-- C8 amended witness: symmetry at an empty argument,
`score("", "x") = score("x", "")`. -/
theorem c8_witness :
    (([] : Str) = "x".toList ∨ ([] : Str) = [] ∨ "x".toList = ([] : Str)) ∧
    ratioQ [] "x".toList = ratioQ "x".toList [] :=
  ⟨Or.inr (Or.inl rfl), c8_amended [] "x".toList (Or.inr (Or.inl rfl))⟩

end TradeData
